import Mathlib

/-!
# Verification of the `SimpleCodegenTask` code-generation engine

A shallow embedding of `src/python/pants/backend/codegen/tasks/simple_codegen_task.py`:
the workspace-layout resolver, generated-source discovery (BFS over the workspace
directory tree with a per-instance memoization cache), the strict-dedup resolver,
the execution strategies, and the graph-rewiring step of `execute`.

Modelling conventions:
* Filesystem paths are lists of path segments (`FPath := List String`); `os.path.join`
  is list append.  `os.path.relpath(p, base)` is modelled as dropping `base.length`
  segments, which agrees with `os.path.relpath` whenever `base` is a prefix of `p`
  (true at every call site embedded here: sources are discovered under, or are
  explicitly joined onto, the workdir that they are later relativized against).
* The filesystem is an immutable tree (`FSTree`); `os.path.exists`/`os.path.isdir`/
  `os.listdir` become lookups in that tree.  The BFS worklist carries each path
  together with the subtree the filesystem holds at it, which is what the repeated
  `os.path.isdir`/`os.listdir` calls of the source observe on an unchanging tree.
* `self._generated_sources_cache` (a Python dict written in insertion order) is an
  association list `Cache`.
* Classes of the surrounding framework that are not part of this file's source
  (`Target.walk`, `BuildGraph`) are modelled from the spec where needed; each such
  definition is marked `Modelled from the spec:` in its doc comment.
-/

/-- A filesystem path, as a list of segments (`os.path.join` = append). -/
abbrev FPath := List String

/-- A directory tree: regular files are leaves, directories hold named children.
Mirrors the filesystem contract: "workspace directories are plain directory trees". -/
inductive FSTree where
  | file : FSTree
  | dir : List (String × FSTree) → FSTree

/-- Named-child lookup in a directory listing (`os.listdir` + name match). -/
def findChild : List (String × FSTree) → String → Option FSTree
  | [], _ => none
  | (n, t) :: rest, seg => if n = seg then some t else findChild rest seg

/-- Resolve a path in the tree.  `lookup fs p = none` models `not os.path.exists(p)`;
`some (.dir _)` models `os.path.isdir(p)`. -/
def FSTree.lookup : FSTree → FPath → Option FSTree
  | t, [] => some t
  | .file, _ :: _ => none
  | .dir cs, seg :: rest =>
    match findChild cs seg with
    | none => none
    | some c => FSTree.lookup c rest

mutual

/-- Size of a tree, used only as the termination measure of the BFS. -/
def FSTree.size : FSTree → Nat
  | .file => 1
  | .dir cs => 1 + sizeChildren cs

/-- Total size of a directory listing (termination measure helper). -/
def sizeChildren : List (String × FSTree) → Nat
  | [] => 0
  | (_, t) :: rest => FSTree.size t + sizeChildren rest

end

theorem sizeChildren_eq_sum (cs : List (String × FSTree)) :
    sizeChildren cs = (cs.map (fun c => c.2.size)).sum := by
  induction cs with
  | nil => simp [sizeChildren]
  | cons c rest ih => cases c; simp [sizeChildren, ih]

/-- The breadth-first search of `_find_sources_generated_by_target` (lines 145-152):
`frontier.pop(0)`; a directory extends the frontier with its children, anything else
is yielded as a generated file. -/
def bfsFiles : List (FPath × FSTree) → List FPath
  | [] => []
  | (p, .file) :: rest => p :: bfsFiles rest
  | (p, .dir cs) :: rest => bfsFiles (rest ++ cs.map (fun c => (p ++ [c.1], c.2)))
termination_by frontier => (frontier.map (fun x => x.2.size)).sum
decreasing_by
  · simp [FSTree.size]
  · simp [FSTree.size, List.map_map, Function.comp_def, sizeChildren_eq_sum]
    omega

/-- The codegen strategy (`--strategy` option: `'global'` or `'isolated'`). -/
inductive Strategy where
  | isolated : Strategy
  | global : Strategy
deriving DecidableEq

/-- A build target as this task sees it: stable id, declared dependencies
(addresses/ids of other targets), and a `provides` clause. -/
structure Target where
  id : String
  dependencies : List String
  provides : Option String
deriving DecidableEq

/-- Configuration of one task instance: the build root, the task workdir
(`self.workdir`, an absolute path under the build root), the effective strategy
(`self.codegen_strategy`), and `type(self).__name__`. -/
structure Cfg where
  buildroot : FPath
  workdirRel : FPath
  strategy : Strategy
  taskTypeName : String

/-- `self.workdir`: absolute path of the task workdir. -/
def Cfg.workdir (c : Cfg) : FPath := c.buildroot ++ c.workdirRel

/-- `_codegen_workdir_suffix(target, strategy)` (lines 111-117). -/
def codegenWorkdirSuffix (target : Target) (strategy : Strategy) : FPath :=
  match strategy with
  | .isolated => ["isolated", target.id]
  | .global => ["global"]

/-- `codegen_workdir(target)` (line 129): `os.path.join(self.workdir, suffix)`. -/
def codegenWorkdir (cfg : Cfg) (target : Target) : FPath :=
  cfg.workdir ++ codegenWorkdirSuffix target cfg.strategy

/-- `_relative_source(target, source)` (lines 165-166): `os.path.relpath(source,
self.codegen_workdir(target))`, for sources under the workdir. -/
def relativeSource (cfg : Cfg) (target : Target) (source : FPath) : FPath :=
  source.drop (codegenWorkdir cfg target).length

/-- `self._generated_sources_cache`: target id → cached source list. -/
abbrev Cache := List (String × List FPath)

/-- Dict lookup `self._generated_sources_cache[target.id]` /
`target.id in self._generated_sources_cache`. -/
def lookupCache : Cache → String → Option (List FPath)
  | [], _ => none
  | (k, v) :: rest, tid => if k = tid then some v else lookupCache rest tid

/-- `_find_sources_generated_by_target(target)` (lines 138-152), as the list of
paths the generator yields, in order.  Note the source has no `return` after
yielding the cached entries: when the id is cached it yields the cached list and
then *also* falls through to the existence check and the BFS re-scan. -/
def findSourcesGeneratedByTarget (cache : Cache) (cfg : Cfg) (fs : FSTree)
    (target : Target) : List FPath :=
  (match lookupCache cache target.id with
   | some srcs => srcs
   | none => []) ++
  (match fs.lookup (codegenWorkdir cfg target) with
   | none => []
   | some t => bfsFiles [(codegenWorkdir cfg target, t)])

/-! ## Generic worklist traversal

Both transitive walks used by the engine (`Target.walk`, used by
`_find_sources_generated_by_dependencies`, and
`BuildGraph.walk_transitive_dependee_graph`, used by `execute`) live in framework
classes outside this file's source.  Modelled from the spec: "reimplement as an
explicit worklist/queue-driven iterative traversal"; "explicit graph traversal
function taking a visitor callback or returning the visited set".  The traversal
visits each node at most once, recorded in visit order; `u` is a finite universe
containing every node that has neighbors (off-universe nodes have none). -/

/-- Filtering with a stronger predicate yields a list no longer. -/
theorem length_filter_mono {α : Type} (l : List α) (p q : α → Bool)
    (h : ∀ a, p a = true → q a = true) :
    (l.filter p).length ≤ (l.filter q).length := by
  induction l with
  | nil => simp
  | cons a rest ih =>
    by_cases hp : p a = true
    · simp [List.filter, hp, h a hp]
      omega
    · simp only [List.filter, Bool.not_eq_true] at hp ⊢
      rw [hp]
      cases hq : q a <;> simp <;> omega

/-- Marking a fresh universe member as visited strictly shrinks the unvisited part. -/
theorem length_filter_lt {α : Type} [DecidableEq α] (l : List α) (visited : List α) (x : α)
    (hx : x ∈ l) (hnx : x ∉ visited) :
    (l.filter (fun y => y ∉ visited ++ [x])).length
      < (l.filter (fun y => y ∉ visited)).length := by
  induction l with
  | nil => cases hx
  | cons a rest ih =>
    by_cases hax : a = x
    · subst hax
      have h1 : (decide (a ∉ visited ++ [a])) = false := by simp
      have h2 : (decide (a ∉ visited)) = true := by simp [hnx]
      simp only [List.filter, h1, h2]
      have := length_filter_mono rest (fun y => decide (y ∉ visited ++ [a]))
        (fun y => decide (y ∉ visited))
        (by intro b hb; simp only [decide_eq_true_eq, List.mem_append] at hb ⊢; tauto)
      simp only [List.length_cons]
      omega
    · have hx' : x ∈ rest := by
        cases hx with
        | head => exact absurd rfl hax
        | tail _ h => exact h
      have heq : (decide (a ∉ visited ++ [x])) = (decide (a ∉ visited)) := by
        simp only [List.mem_append, List.mem_singleton, decide_not]
        congr 1
        simp [hax]
      simp only [List.filter, heq]
      cases hv : decide (a ∉ visited) <;> simp only [] <;>
        [skip; simp only [List.length_cons]] <;> [exact ih hx'; exact Nat.succ_lt_succ (ih hx')]

/-- Visiting a node outside the universe leaves the unvisited count unchanged. -/
theorem filter_notmem_append_singleton {α : Type} [DecidableEq α] (l : List α)
    (visited : List α) (x : α) (hx : x ∉ l) :
    l.filter (fun y => y ∉ visited ++ [x]) = l.filter (fun y => y ∉ visited) := by
  apply List.filter_congr
  intro a ha
  have hax : a ≠ x := fun h => hx (h ▸ ha)
  simp only [List.mem_append, List.mem_singleton, decide_not]
  congr 1
  simp [hax]

/-- Worklist traversal: pop a node, skip it if already visited, otherwise record it
and push its neighbors.  Returns the visited list in visit order. -/
def walkAux (nbrs : String → List String) (u : List String) :
    List String → List String → List String
  | visited, [] => visited
  | visited, x :: stack =>
    if _hx : x ∈ visited then walkAux nbrs u visited stack
    else walkAux nbrs u (visited ++ [x]) ((if x ∈ u then nbrs x else []) ++ stack)
termination_by visited stack => ((u.filter (fun y => y ∉ visited)).length, stack.length)
decreasing_by
  · exact Prod.Lex.right _ (Nat.lt_succ_self _)
  · by_cases hu : x ∈ u
    · exact Prod.Lex.left _ _ (length_filter_lt u visited x hu _hx)
    · rw [filter_notmem_append_singleton u visited x hu]
      apply Prod.Lex.right
      simp [hu]

/-- The transitive walk from a start set. -/
def walkFrom (nbrs : String → List String) (u : List String) (starts : List String) :
    List String :=
  walkAux nbrs u [] starts

/-- One traversal step: from a universe member to one of its neighbors. -/
def stepRel (nbrs : String → List String) (u : List String) (a b : String) : Prop :=
  a ∈ u ∧ b ∈ nbrs a

theorem walkAux_nodup (nbrs : String → List String) (u : List String)
    (visited stack : List String) (h : visited.Nodup) :
    (walkAux nbrs u visited stack).Nodup := by
  induction visited, stack using walkAux.induct nbrs u with
  | case1 visited => simpa [walkAux] using h
  | case2 visited x stack hx ih =>
    rw [walkAux]
    simp only [dif_pos hx]
    exact ih h
  | case3 visited x stack hx ih =>
    rw [walkAux]
    simp only [dif_neg hx]
    apply ih
    simp [List.nodup_append, h, hx]

theorem walkAux_sound (nbrs : String → List String) (u : List String)
    (visited stack : List String) :
    ∀ y ∈ walkAux nbrs u visited stack,
      y ∈ visited ∨ ∃ x ∈ stack, Relation.ReflTransGen (stepRel nbrs u) x y := by
  induction visited, stack using walkAux.induct nbrs u with
  | case1 visited =>
    intro y hy
    rw [walkAux] at hy
    exact Or.inl hy
  | case2 visited x stack hx ih =>
    intro y hy
    rw [walkAux] at hy
    simp only [dif_pos hx] at hy
    rcases ih y hy with h | ⟨z, hz, hr⟩
    · exact Or.inl h
    · exact Or.inr ⟨z, List.mem_cons_of_mem _ hz, hr⟩
  | case3 visited x stack hx ih =>
    intro y hy
    rw [walkAux] at hy
    simp only [dif_neg hx] at hy
    rcases ih y hy with h | ⟨z, hz, hr⟩
    · rcases List.mem_append.mp h with h | h
      · exact Or.inl h
      · exact Or.inr ⟨x, List.mem_cons_self x stack, by
          simp only [List.mem_singleton] at h
          exact h ▸ Relation.ReflTransGen.refl⟩
    · rcases List.mem_append.mp hz with h | h
      · by_cases hu : x ∈ u
        · rw [dif_pos hu] at h
          exact Or.inr ⟨x, List.mem_cons_self x stack,
            Relation.ReflTransGen.head ⟨hu, h⟩ hr⟩
        · rw [dif_neg hu] at h
          cases h
      · exact Or.inr ⟨z, List.mem_cons_of_mem _ h, hr⟩

/-- A visited set closed under the step relation absorbs everything reachable from it. -/
theorem reach_mem_of_closed (nbrs : String → List String) (u : List String)
    (visited : List String)
    (hcl : ∀ v ∈ visited, ∀ w, stepRel nbrs u v w → w ∈ visited)
    {x y : String} (h : Relation.ReflTransGen (stepRel nbrs u) x y) :
    x ∈ visited → y ∈ visited := by
  induction h using Relation.ReflTransGen.head_induction_on with
  | refl => exact id
  | head hstep _ ih => intro hx; exact ih (hcl _ hx _ hstep)

theorem walkAux_complete (nbrs : String → List String) (u : List String)
    (visited stack : List String)
    (hcl : ∀ v ∈ visited, ∀ w, stepRel nbrs u v w → w ∈ visited ∨ w ∈ stack) :
    ∀ x y, (x ∈ visited ∨ x ∈ stack) →
      Relation.ReflTransGen (stepRel nbrs u) x y →
      y ∈ walkAux nbrs u visited stack := by
  induction visited, stack using walkAux.induct nbrs u with
  | case1 visited =>
    intro x y hx hr
    rw [walkAux]
    rcases hx with hx | hx
    · exact reach_mem_of_closed nbrs u visited
        (fun v hv w hw => (hcl v hv w hw).resolve_right (by simp)) hr hx
    · cases hx
  | case2 visited x0 stack hx0 ih =>
    intro x y hx hr
    rw [walkAux]
    simp only [dif_pos hx0]
    apply ih
    · intro v hv w hw
      rcases hcl v hv w hw with h | h
      · exact Or.inl h
      · rcases List.mem_cons.mp h with h | h
        · exact Or.inl (h ▸ hx0)
        · exact Or.inr h
    · rcases hx with h | h
      · exact Or.inl h
      · rcases List.mem_cons.mp h with h | h
        · exact Or.inl (h ▸ hx0)
        · exact Or.inr h
    · exact hr
  | case3 visited x0 stack hx0 ih =>
    intro x y hx hr
    rw [walkAux]
    simp only [dif_neg hx0]
    apply ih
    · intro v hv w hw
      rcases List.mem_append.mp hv with hv | hv
      · rcases hcl v hv w hw with h | h
        · exact Or.inl (List.mem_append_left _ h)
        · rcases List.mem_cons.mp h with h | h
          · exact Or.inl (List.mem_append_right _ (by simp [h]))
          · exact Or.inr (List.mem_append_right _ h)
      · have hvx : v = x0 := by simpa using hv
        subst hvx
        rcases hw with ⟨hvu, hwn⟩
        exact Or.inr (List.mem_append_left _ (by rw [dif_pos hvu]; exact hwn))
    · rcases hx with h | h
      · exact Or.inl (List.mem_append_left _ h)
      · rcases List.mem_cons.mp h with h | h
        · exact Or.inl (List.mem_append_right _ (by simp [h]))
        · exact Or.inr (List.mem_append_right _ h)
    · exact hr

/-- Correctness of the worklist traversal: it records exactly the nodes reachable
from the start set, each exactly once. -/
theorem walkFrom_spec (nbrs : String → List String) (u : List String)
    (starts : List String) :
    (∀ y, y ∈ walkFrom nbrs u starts ↔
        ∃ x ∈ starts, Relation.ReflTransGen (stepRel nbrs u) x y) ∧
      (walkFrom nbrs u starts).Nodup := by
  refine ⟨fun y => ⟨fun hy => ?_, fun ⟨x, hx, hr⟩ => ?_⟩, walkAux_nodup _ _ _ _ List.nodup_nil⟩
  · rcases walkAux_sound nbrs u [] starts y hy with h | h
    · cases h
    · exact h
  · exact walkAux_complete nbrs u [] starts (by simp) x y (Or.inr hx) hr

/-! ## Dependency walk over the target graph -/

/-- The build graph's targets, looked up by id (ids are unique in a build graph). -/
def lookupTarget : List Target → String → Option Target
  | [], _ => none
  | t :: rest, tid => if t.id = tid then some t else lookupTarget rest tid

/-- Declared dependency ids of the target with the given id. -/
def depsOfId (g : List Target) (tid : String) : List String :=
  match lookupTarget g tid with
  | some t => t.dependencies
  | none => []

/-- Modelled from the spec: `Target.walk` (framework class, not under `src/`) visits
the target and each of its transitive dependencies exactly once.  Ids visited by
`target.walk`, in visit order. -/
def walkTargetIds (g : List Target) (target : Target) : List String :=
  walkFrom (depsOfId g) (g.map (fun t => t.id)) [target.id]

/-- The targets visited by `target.walk`, resolved in the graph. -/
def walkTargets (g : List Target) (target : Target) : List Target :=
  (walkTargetIds g target).filterMap (lookupTarget g)

theorem lookupTarget_some {g : List Target} {i : String} {t : Target}
    (h : lookupTarget g i = some t) : t ∈ g ∧ t.id = i := by
  induction g with
  | nil => cases h
  | cons t' rest ih =>
    by_cases hid : t'.id = i
    · simp [lookupTarget, hid] at h
      exact ⟨by simp [← h], h ▸ hid⟩
    · simp [lookupTarget, hid] at h
      rcases ih h with ⟨h1, h2⟩
      exact ⟨List.mem_cons_of_mem _ h1, h2⟩

theorem lookupTarget_of_mem {g : List Target} {t : Target}
    (hnd : (g.map (fun t => t.id)).Nodup) (ht : t ∈ g) :
    lookupTarget g t.id = some t := by
  induction g with
  | nil => cases ht
  | cons t' rest ih =>
    simp only [List.map_cons, List.nodup_cons] at hnd
    rcases List.mem_cons.mp ht with h | h
    · simp [lookupTarget, h]
    · by_cases hid : t'.id = t.id
      · exact absurd (hid ▸ List.mem_map.mpr ⟨t, h, rfl⟩) hnd.1
      · simp only [lookupTarget, hid, if_false]
        exact ih hnd.2 h

/-- The dependency-edge relation of the target graph: `b` is a declared dependency
of the target with id `a`. -/
def depStep (g : List Target) (a b : String) : Prop := b ∈ depsOfId g a

theorem depStep_iff_stepRel (g : List Target) (a b : String) :
    depStep g a b ↔ stepRel (depsOfId g) (g.map (fun t => t.id)) a b := by
  constructor
  · intro h
    refine ⟨?_, h⟩
    unfold depStep depsOfId at h
    cases hl : lookupTarget g a with
    | none => rw [hl] at h; cases h
    | some t =>
      rcases lookupTarget_some hl with ⟨hmem, hid⟩
      exact List.mem_map.mpr ⟨t, hmem, hid⟩
  · exact fun h => h.2

theorem depReach_iff (g : List Target) (a b : String) :
    Relation.ReflTransGen (depStep g) a b ↔
      Relation.ReflTransGen (stepRel (depsOfId g) (g.map (fun t => t.id))) a b := by
  constructor
  · exact Relation.ReflTransGen.mono (fun x y => (depStep_iff_stepRel g x y).mp)
  · exact Relation.ReflTransGen.mono (fun x y => (depStep_iff_stepRel g x y).mpr)

/-- Membership in the resolved walk, in terms of dependency reachability. -/
theorem mem_walkTargets (g : List Target) (target : Target)
    (hnd : (g.map (fun t => t.id)).Nodup) (dep : Target) :
    dep ∈ walkTargets g target ↔
      dep ∈ g ∧ Relation.ReflTransGen (depStep g) target.id dep.id := by
  unfold walkTargets
  rw [List.mem_filterMap]
  constructor
  · rintro ⟨i, hi, hlook⟩
    rcases lookupTarget_some hlook with ⟨hmem, hid⟩
    refine ⟨hmem, ?_⟩
    rw [depReach_iff]
    rcases ((walkFrom_spec _ _ _).1 i).mp hi with ⟨x, hx, hr⟩
    simp only [List.mem_singleton] at hx
    exact hid ▸ hx ▸ hr
  · rintro ⟨hmem, hr⟩
    refine ⟨dep.id, ?_, lookupTarget_of_mem hnd hmem⟩
    apply ((walkFrom_spec _ _ _).1 dep.id).mpr
    exact ⟨target.id, List.mem_singleton_self _, (depReach_iff g _ _).mp hr⟩

/-! ## OrderedSet and the dependency-source union -/

/-- `OrderedSet.update`: append each new element not already present, keeping
first-occurrence order. -/
def orderedSetUpdate (s : List FPath) (new : List FPath) : List FPath :=
  new.foldl (fun acc x => if x ∈ acc then acc else acc ++ [x]) s

theorem mem_orderedSetUpdate (s new : List FPath) (x : FPath) :
    x ∈ orderedSetUpdate s new ↔ x ∈ s ∨ x ∈ new := by
  induction new generalizing s with
  | nil => simp [orderedSetUpdate]
  | cons y rest ih =>
    unfold orderedSetUpdate at ih ⊢
    simp only [List.foldl_cons]
    rw [ih]
    by_cases hy : y ∈ s
    · simp only [if_pos hy]
      constructor
      · rintro (h | h)
        · exact Or.inl h
        · exact Or.inr (List.mem_cons_of_mem _ h)
      · rintro (h | h)
        · exact Or.inl h
        · rcases List.mem_cons.mp h with h | h
          · exact Or.inl (h ▸ hy)
          · exact Or.inr h
    · simp only [if_neg hy, List.mem_append, List.mem_singleton, List.mem_cons]
      tauto

/-- The per-dependency source list `add_sources` adds (lines 158-160): the
dependency's discovered sources, relativized to the dependency's workdir when
`relative` is set. -/
def depSourceList (cache : Cache) (cfg : Cfg) (fs : FSTree) (relative : Bool)
    (dep : Target) : List FPath :=
  let depSources := findSourcesGeneratedByTarget cache cfg fs dep
  if relative then depSources.map (relativeSource cfg dep) else depSources

/-- `_find_sources_generated_by_dependencies(target, relative)` (lines 154-163):
walk the target's transitive dependencies, skipping the target itself, collecting
each dependency's generated sources into an `OrderedSet`. -/
def findSourcesGeneratedByDependencies (cache : Cache) (cfg : Cfg) (fs : FSTree)
    (g : List Target) (target : Target) (relative : Bool) : List FPath :=
  (walkTargets g target).foldl
    (fun sources dep =>
      if dep.id = target.id then sources
      else orderedSetUpdate sources (depSourceList cache cfg fs relative dep))
    []

theorem mem_addSourcesFold (srcFn : Target → List FPath) (tid : String)
    (deps : List Target) (init : List FPath) (p : FPath) :
    p ∈ deps.foldl
        (fun sources dep =>
          if dep.id = tid then sources else orderedSetUpdate sources (srcFn dep))
        init ↔
      p ∈ init ∨ ∃ dep ∈ deps, dep.id ≠ tid ∧ p ∈ srcFn dep := by
  induction deps generalizing init with
  | nil => simp
  | cons d rest ih =>
    simp only [List.foldl_cons]
    rw [ih]
    by_cases hd : d.id = tid
    · simp only [if_pos hd]
      constructor
      · rintro (h | ⟨dep, hdep, hne, hp⟩)
        · exact Or.inl h
        · exact Or.inr ⟨dep, List.mem_cons_of_mem _ hdep, hne, hp⟩
      · rintro (h | ⟨dep, hdep, hne, hp⟩)
        · exact Or.inl h
        · rcases List.mem_cons.mp hdep with h | h
          · exact absurd (h ▸ hd) hne
          · exact Or.inr ⟨dep, h, hne, hp⟩
    · simp only [if_neg hd]
      rw [mem_orderedSetUpdate]
      constructor
      · rintro ((h | h) | ⟨dep, hdep, hne, hp⟩)
        · exact Or.inl h
        · exact Or.inr ⟨d, List.mem_cons_self _ _, hd, h⟩
        · exact Or.inr ⟨dep, List.mem_cons_of_mem _ hdep, hne, hp⟩
      · rintro (h | ⟨dep, hdep, hne, hp⟩)
        · exact Or.inl (Or.inl h)
        · rcases List.mem_cons.mp hdep with h | h
          · exact Or.inl (Or.inr (h ▸ hp))
          · exact Or.inr ⟨dep, h, hne, hp⟩

/-- Membership in the dependency-source union, in terms of reachability. -/
theorem mem_findSourcesGeneratedByDependencies (cache : Cache) (cfg : Cfg)
    (fs : FSTree) (g : List Target) (target : Target) (relative : Bool)
    (hnd : (g.map (fun t => t.id)).Nodup) (p : FPath) :
    p ∈ findSourcesGeneratedByDependencies cache cfg fs g target relative ↔
      ∃ dep, dep ∈ g ∧ Relation.ReflTransGen (depStep g) target.id dep.id ∧
        dep.id ≠ target.id ∧ p ∈ depSourceList cache cfg fs relative dep := by
  unfold findSourcesGeneratedByDependencies
  rw [mem_addSourcesFold]
  simp only [List.not_mem_nil, false_or]
  constructor
  · rintro ⟨dep, hdep, hne, hp⟩
    rcases (mem_walkTargets g target hnd dep).mp hdep with ⟨hmem, hr⟩
    exact ⟨dep, hmem, hr, hne, hp⟩
  · rintro ⟨dep, hmem, hr, hne, hp⟩
    exact ⟨dep, (mem_walkTargets g target hnd dep).mpr ⟨hmem, hr⟩, hne, hp⟩

/-! ## The strict (dedup) resolver -/

/-- `_find_sources_strictly_generated_by_target(target)` (lines 168-181): on a cache
hit, return the cached list; otherwise keep the discovered sources whose
workdir-relative path is not claimed by any transitive dependency.  (The
unconditional debug `print` of the source is omitted: it does not affect the
returned value.) -/
def findSourcesStrictlyGeneratedByTarget (cache : Cache) (cfg : Cfg) (fs : FSTree)
    (g : List Target) (target : Target) : List FPath :=
  match lookupCache cache target.id with
  | some srcs => srcs
  | none =>
    let srcsOfTarget := orderedSetUpdate [] (findSourcesGeneratedByTarget cache cfg fs target)
    let srcsOfDependencies := findSourcesGeneratedByDependencies cache cfg fs g target true
    srcsOfTarget.filter (fun t => relativeSource cfg target t ∉ srcsOfDependencies)

/-- The cache write of line 180: `self._generated_sources_cache[target.id] = strict`
(only reached on a cache miss). -/
def strictCacheAfter (cache : Cache) (cfg : Cfg) (fs : FSTree) (g : List Target)
    (target : Target) : Cache :=
  match lookupCache cache target.id with
  | some _ => cache
  | none =>
    cache ++ [(target.id, findSourcesStrictlyGeneratedByTarget cache cfg fs g target)]

/-- On a cache miss the strict set is the discovered set filtered against the
dependency union. -/
theorem mem_strict_miss (cache : Cache) (cfg : Cfg) (fs : FSTree) (g : List Target)
    (target : Target) (hmiss : lookupCache cache target.id = none) (p : FPath) :
    p ∈ findSourcesStrictlyGeneratedByTarget cache cfg fs g target ↔
      p ∈ findSourcesGeneratedByTarget cache cfg fs target ∧
        relativeSource cfg target p ∉
          findSourcesGeneratedByDependencies cache cfg fs g target true := by
  unfold findSourcesStrictlyGeneratedByTarget
  rw [hmiss]
  simp only [List.mem_filter, mem_orderedSetUpdate, List.not_mem_nil, false_or,
    decide_eq_true_eq]

/-- C1: for every node, the strict source set is the raw discovered set minus the
union, over every transitive dependency other than the node itself, of that
dependency's discovered files normalized to paths relative to the dependency's own
workspace root; consequently, for distinct nodes where `b` transitively depends on
`a`, the strict sets of `b` and `a` are disjoint after normalization. -/
theorem strict_eq_discover_minus_deps_and_disjoint
    (cfg : Cfg) (fs : FSTree) (g : List Target)
    (hnd : (g.map (fun t => t.id)).Nodup)
    (t a b : Target) (ha : a ∈ g)
    (hreach : Relation.ReflTransGen (depStep g) b.id a.id)
    (hne : a.id ≠ b.id) :
    (∀ p, p ∈ findSourcesStrictlyGeneratedByTarget [] cfg fs g t ↔
        p ∈ findSourcesGeneratedByTarget [] cfg fs t ∧
          ¬ ∃ dep, dep ∈ g ∧ Relation.ReflTransGen (depStep g) t.id dep.id ∧
              dep.id ≠ t.id ∧
              relativeSource cfg t p ∈
                (findSourcesGeneratedByTarget [] cfg fs dep).map
                  (relativeSource cfg dep)) ∧
    (∀ p ∈ findSourcesStrictlyGeneratedByTarget [] cfg fs g b,
       ∀ q ∈ findSourcesStrictlyGeneratedByTarget [] cfg fs g a,
         relativeSource cfg b p ≠ relativeSource cfg a q) := by
  constructor
  · intro p
    rw [mem_strict_miss [] cfg fs g t rfl p]
    apply and_congr_right
    intro _
    apply not_congr
    rw [mem_findSourcesGeneratedByDependencies [] cfg fs g t true hnd]
    apply exists_congr
    intro dep
    simp [depSourceList]
  · intro p hp q hq heq
    have h1 := (mem_strict_miss [] cfg fs g b rfl p).mp hp
    have h2 := (mem_strict_miss [] cfg fs g a rfl q).mp hq
    apply h1.2
    rw [mem_findSourcesGeneratedByDependencies [] cfg fs g b true hnd]
    refine ⟨a, ha, hreach, hne, ?_⟩
    simp only [depSourceList, if_pos rfl]
    exact List.mem_map.mpr ⟨q, h2.1, heq.symm⟩

/-! ## Concrete fixture: a two-node graph and its filesystem

`bW` depends on `aW`; each target's isolated workspace holds its generated files,
and `bW`'s workspace also holds a copy of `aW`'s generated `x.java`. -/

/-- Fixture configuration (isolated strategy). -/
def cfgW : Cfg :=
  { buildroot := ["root"], workdirRel := ["gen"], strategy := .isolated,
    taskTypeName := "TestGen" }

/-- Fixture target `a` (no dependencies). -/
def aW : Target := { id := "a", dependencies := [], provides := some "libA" }

/-- Fixture target `b`, depending on `a`. -/
def bW : Target := { id := "b", dependencies := ["a"], provides := none }

/-- Fixture target `c`, with no workspace on disk. -/
def cW : Target := { id := "c", dependencies := [], provides := none }

/-- Fixture graph. -/
def gW : List Target := [aW, bW]

/-- Fixture filesystem. -/
def fsW : FSTree :=
  .dir [("root", .dir [("gen", .dir [("isolated", .dir
    [("a", .dir [("x.java", .file)]),
     ("b", .dir [("x.java", .file), ("y.java", .file)])])])])]

/-- Witness for C1: the two-node fixture satisfies the hypotheses, and the
conclusion follows at `t := bW`, `a := aW`, `b := bW`. -/
theorem strict_eq_discover_minus_deps_and_disjoint_witness :
    ((gW.map (fun t => t.id)).Nodup ∧ aW ∈ gW ∧
        Relation.ReflTransGen (depStep gW) bW.id aW.id ∧ aW.id ≠ bW.id) ∧
      ((∀ p, p ∈ findSourcesStrictlyGeneratedByTarget [] cfgW fsW gW bW ↔
            p ∈ findSourcesGeneratedByTarget [] cfgW fsW bW ∧
              ¬ ∃ dep, dep ∈ gW ∧
                  Relation.ReflTransGen (depStep gW) bW.id dep.id ∧
                  dep.id ≠ bW.id ∧
                  relativeSource cfgW bW p ∈
                    (findSourcesGeneratedByTarget [] cfgW fsW dep).map
                      (relativeSource cfgW dep)) ∧
        (∀ p ∈ findSourcesStrictlyGeneratedByTarget [] cfgW fsW gW bW,
           ∀ q ∈ findSourcesStrictlyGeneratedByTarget [] cfgW fsW gW aW,
             relativeSource cfgW bW p ≠ relativeSource cfgW aW q)) :=
  have hnd : (gW.map (fun t => t.id)).Nodup := by decide
  have ha : aW ∈ gW := by decide
  have hr : Relation.ReflTransGen (depStep gW) bW.id aW.id :=
    Relation.ReflTransGen.single (show aW.id ∈ depsOfId gW bW.id by decide)
  have hne : aW.id ≠ bW.id := by decide
  ⟨⟨hnd, ha, hr, hne⟩,
    strict_eq_discover_minus_deps_and_disjoint cfgW fsW gW hnd bW aW bW ha hr hne⟩

/-! ## Execution strategies and generator batches -/

/-- `_execute_strategy_isolated(targets)` (lines 131-133), as the list of batches
passed to `execute_codegen`: one singleton batch per target. -/
def executeStrategyIsolated (targets : List Target) : List (List Target) :=
  targets.map (fun t => [t])

/-- `_execute_strategy_global(targets)` (lines 135-136): one batch with all targets. -/
def executeStrategyGlobal (targets : List Target) : List (List Target) :=
  [targets]

/-- Modelled from the spec: `invalidation_check.invalid_vts_partitioned` (framework
`Task` attribute, not under `src/`): the relevant invalid nodes are presented as
ordered partitions, and "for 'global' strategy there is exactly one partition
containing all relevant nodes". -/
def invalidVtsPartitioned (invalid : List Target) : List (List Target) :=
  [invalid]

/-- The batches `execute` (lines 200-201) passes to `execute_codegen`: for each
invalid partition, dispatch on the strategy. -/
def executeCodegenBatches (strategy : Strategy) (partitions : List (List Target)) :
    List (List Target) :=
  partitions.flatMap (fun vts =>
    match strategy with
    | .isolated => executeStrategyIsolated vts
    | .global => executeStrategyGlobal vts)

/-- C2: under the isolated strategy every `execute_codegen` call receives a batch of
exactly one node; under the global strategy the generator is invoked once, with the
full set of relevant invalid nodes. -/
theorem codegen_batches_isolated_singleton_global_once
    (partitions : List (List Target)) (invalid : List Target) :
    ((executeCodegenBatches .isolated partitions).all
        (fun batch => batch.length == 1)) = true ∧
      executeCodegenBatches .global (invalidVtsPartitioned invalid) = [invalid] := by
  constructor
  · simp only [executeCodegenBatches, executeStrategyIsolated, List.all_eq_true]
    intro batch hbatch
    rcases List.mem_flatMap.mp hbatch with ⟨vts, _, hmem⟩
    rcases List.mem_map.mp hmem with ⟨t, _, rfl⟩
    rfl
  · rfl

/-- C5: the workspace path is `<base>/isolated/<node.id>` under the isolated
strategy and the shared `<base>/global` under the global strategy, and it is a pure
function of the strategy and the node's id (hence identical across any number of
calls with the same inputs). -/
theorem codegen_workdir_layout_deterministic (br wr : FPath) (name : String)
    (t : Target) (deps : List String) (prov : Option String) :
    codegenWorkdir ⟨br, wr, .isolated, name⟩ t = (br ++ wr) ++ ["isolated", t.id] ∧
      codegenWorkdir ⟨br, wr, .global, name⟩ t = (br ++ wr) ++ ["global"] ∧
      (∀ s : Strategy,
        codegenWorkdir ⟨br, wr, s, name⟩
            { id := t.id, dependencies := deps, provides := prov } =
          codegenWorkdir ⟨br, wr, s, name⟩ t) :=
  ⟨rfl, rfl, fun s => by cases s <;> rfl⟩

/-! ## Discovery memoization (C6, C7) -/

/-- C6 (code bug): when the target's id is already in the per-run cache and its
workspace exists, `_find_sources_generated_by_target` yields the cached list *and
then re-scans the workspace* — the cache-hit yield loop at lines 139-141 is not
followed by a `return`, so control falls through to the BFS.  At the fixture input
the result is the cached entry followed by the two files on disk, not the cached
list alone. -/
theorem discovery_cache_hit_still_rescans :
    findSourcesGeneratedByTarget [("b", [["cached.java"]])] cfgW fsW bW =
        [["cached.java"],
         ["root", "gen", "isolated", "b", "x.java"],
         ["root", "gen", "isolated", "b", "y.java"]] ∧
      findSourcesGeneratedByTarget [("b", [["cached.java"]])] cfgW fsW bW ≠
        [["cached.java"]] := by
  constructor
  · simp [findSourcesGeneratedByTarget, lookupCache, FSTree.lookup, findChild,
      codegenWorkdir, Cfg.workdir, codegenWorkdirSuffix, bfsFiles, cfgW, fsW, bW]
  · intro h
    have := congrArg List.length h
    simp [findSourcesGeneratedByTarget, lookupCache, FSTree.lookup, findChild,
      codegenWorkdir, Cfg.workdir, codegenWorkdirSuffix, bfsFiles, cfgW, fsW, bW]
      at this

/-- C7: for a node whose workspace directory does not exist and whose id is not
memoized, discovery yields the empty list; the source path is the early `return` at
lines 143-144, with no exception raised (the embedding is a total function). -/
theorem discovery_missing_workdir_yields_empty (cache : Cache) (cfg : Cfg)
    (fs : FSTree) (target : Target)
    (hmiss : lookupCache cache target.id = none)
    (hnodir : fs.lookup (codegenWorkdir cfg target) = none) :
    findSourcesGeneratedByTarget cache cfg fs target = [] := by
  unfold findSourcesGeneratedByTarget
  rw [hmiss, hnodir]
  rfl

/-- Witness for C7: target `cW` has no workspace under the fixture filesystem. -/
theorem discovery_missing_workdir_yields_empty_witness :
    (lookupCache [] cW.id = none ∧
        fsW.lookup (codegenWorkdir cfgW cW) = none) ∧
      findSourcesGeneratedByTarget [] cfgW fsW cW = [] :=
  ⟨⟨rfl, rfl⟩, discovery_missing_workdir_yields_empty [] cfgW fsW cW rfl rfl⟩

/-! ## Cache lifecycle across `execute` calls (C8) -/

/-- `__init__` (lines 20-23): `self._generated_sources_cache = {}` — the
per-instance cache starts empty at construction, and nowhere else is it reset. -/
def initGeneratedSourcesCache : Cache := []

/-- The effect of one `execute` call (lines 183-260) on the instance cache: the
per-target loop runs the strategy's source function for each relevant target; under
the isolated strategy `_find_sources_strictly_generated_by_target` writes its
result into the cache on a miss (line 180), under the global strategy
`sources_generated_by_target` never touches the cache. -/
def executeCache (cfg : Cfg) (fs : FSTree) (g : List Target) :
    Cache → List Target → Cache
  | cache, [] => cache
  | cache, t :: rest =>
    executeCache cfg fs g
      (match cfg.strategy with
       | .isolated => strictCacheAfter cache cfg fs g t
       | .global => cache) rest

/-- The cache state observed at the start of an `execute` call is the instance
cache, unchanged: `execute` contains no statement clearing
`_generated_sources_cache` (it is assigned only in `__init__`). -/
def cacheAtExecuteStart (instanceCache : Cache) : Cache := instanceCache

/-- C8 counterexample: after a first `execute` round over the fixture graph, the
cache an immediately following `execute` call starts with is *not* empty — entries
carry over between rounds on the same instance. -/
theorem cache_not_cleared_between_rounds_counterexample :
    cacheAtExecuteStart (executeCache cfgW fsW gW initGeneratedSourcesCache [aW]) ≠
      initGeneratedSourcesCache := by
  have h : cacheAtExecuteStart (executeCache cfgW fsW gW initGeneratedSourcesCache [aW]) =
      [("a", findSourcesStrictlyGeneratedByTarget [] cfgW fsW gW aW)] := rfl
  rw [h]
  simp [initGeneratedSourcesCache]

theorem lookupCache_append_of_some {cache : Cache} {k tid : String}
    {w v : List FPath} (h : lookupCache cache tid = some v) :
    lookupCache (cache ++ [(k, w)]) tid = some v := by
  induction cache with
  | nil => cases h
  | cons e rest ih =>
    cases e with
    | mk k' v' =>
      by_cases hk : k' = tid
      · simpa [lookupCache, hk] using h
      · simp only [lookupCache, hk, if_false, List.cons_append] at h ⊢
        exact ih h

theorem lookupCache_strictCacheAfter (cache : Cache) (cfg : Cfg) (fs : FSTree)
    (g : List Target) (t : Target) {tid : String} {v : List FPath}
    (h : lookupCache cache tid = some v) :
    lookupCache (strictCacheAfter cache cfg fs g t) tid = some v := by
  unfold strictCacheAfter
  cases hl : lookupCache cache t.id with
  | some _ => exact h
  | none => exact lookupCache_append_of_some h

/-- C8 amended: the discovery cache is created empty when the task instance is
constructed, and it is *per instance*, not per round: `execute` never clears it, and
every entry present before an `execute` call is still present (unchanged) after it,
so entries carry over into subsequent rounds run on the same instance. -/
theorem cache_empty_at_init_and_persistent_across_rounds (cfg : Cfg) (fs : FSTree)
    (g : List Target) (cache : Cache) (targets : List Target) (tid : String)
    (v : List FPath) (h : lookupCache cache tid = some v) :
    initGeneratedSourcesCache = ([] : Cache) ∧
      lookupCache
          (cacheAtExecuteStart (executeCache cfg fs g cache targets)) tid = some v := by
  refine ⟨rfl, ?_⟩
  unfold cacheAtExecuteStart
  induction targets generalizing cache with
  | nil => exact h
  | cons t rest ih =>
    unfold executeCache
    apply ih
    cases cfg.strategy with
    | isolated => exact lookupCache_strictCacheAfter cache cfg fs g t h
    | global => exact h

/-- Witness for the amended C8: an entry for `a` survives an `execute` round over
the rest of the fixture graph. -/
theorem cache_empty_at_init_and_persistent_across_rounds_witness :
    lookupCache [("a", [["x.java"]])] "a" = some [["x.java"]] ∧
      (initGeneratedSourcesCache = ([] : Cache) ∧
        lookupCache
            (cacheAtExecuteStart
              (executeCache cfgW fsW gW [("a", [["x.java"]])] [bW])) "a" =
          some [["x.java"]]) :=
  ⟨rfl, cache_empty_at_init_and_persistent_across_rounds cfgW fsW gW
    [("a", [["x.java"]])] [bW] "a" [["x.java"]] rfl⟩

/-! ## Synthetic target creation (C9, C10) -/

/-- Rendering of a relative path into the string `'{0}{1}'.format` concatenates
onto the task type name (line 210). -/
def pathToString (p : FPath) : String := String.intercalate "/" p

/-- The synthetic target `add_new_target` creates (lines 221-229). -/
structure SyntheticTarget where
  specPath : String
  name : String
  dependencies : List String
  sourcesRelPath : FPath
  sources : List FPath
  derivedFrom : String
  provides : Option String
deriving DecidableEq

/-- One iteration of the per-target loop of `execute` (lines 206-229): the
synthetic name is the target's id (line 208), `sources_rel_path` is the workdir
relative to the build root (line 209), raw sources are joined onto the workdir
unless already under it (lines 215-217), then relativized to the workdir (lines
218-219), and the synthetic target is created with the extra synthetic
dependencies, `derived_from=target` and `provides=target.provides` (221-229). -/
def syntheticTargetFor (cfg : Cfg) (extraDeps : Target → List String)
    (rawGeneratedSources : List FPath) (target : Target) : SyntheticTarget :=
  let targetWorkdir := codegenWorkdir cfg target
  let sourcesRelPath := targetWorkdir.drop cfg.buildroot.length
  let generatedSources := rawGeneratedSources.map (fun src =>
    if targetWorkdir.isPrefixOf src then src else targetWorkdir ++ src)
  let relativeGeneratedSources := generatedSources.map (fun src =>
    src.drop targetWorkdir.length)
  { specPath := cfg.taskTypeName ++ pathToString sourcesRelPath
    name := target.id
    dependencies := extraDeps target
    sourcesRelPath := sourcesRelPath
    sources := relativeGeneratedSources
    derivedFrom := target.id
    provides := target.provides }

/-- `sources_strategies[self.codegen_strategy]` (lines 188-191, 212): strict
dedup under isolated, the generator's own prediction
(`sources_generated_by_target`) under global. -/
def sourcesStrategy (cfg : Cfg) (fs : FSTree) (g : List Target)
    (predict : Target → List FPath) (cache : Cache) (target : Target) : List FPath :=
  match cfg.strategy with
  | .isolated => findSourcesStrictlyGeneratedByTarget cache cfg fs g target
  | .global => predict target

/-- The synthetic targets created by the per-target loop of `execute` (lines
206-229), over all relevant targets (valid or not), threading the discovery
cache. -/
def executeSynthetics (cfg : Cfg) (fs : FSTree) (g : List Target)
    (predict : Target → List FPath) (extraDeps : Target → List String) :
    Cache → List Target → List SyntheticTarget
  | _, [] => []
  | cache, t :: rest =>
    syntheticTargetFor cfg extraDeps (sourcesStrategy cfg fs g predict cache t) t ::
      executeSynthetics cfg fs g predict extraDeps
        (match cfg.strategy with
         | .isolated => strictCacheAfter cache cfg fs g t
         | .global => cache) rest

/-- C9: every relevant node receives exactly one freshly created synthetic node per
round (the created list corresponds one-to-one, in order, to the relevant targets,
valid ones included), and a node with no discovered sources and an unmemoized id
gets a synthetic node whose source list is empty. -/
theorem one_synthetic_per_relevant_node (cfg : Cfg) (fs : FSTree) (g : List Target)
    (predict : Target → List FPath) (extraDeps : Target → List String)
    (cache : Cache) (targets : List Target) (t : Target)
    (hmiss : lookupCache cache t.id = none)
    (hdisc : findSourcesGeneratedByTarget cache cfg fs t = []) :
    (executeSynthetics cfg fs g predict extraDeps cache targets).map
        (fun s => s.derivedFrom) = targets.map (fun tg => tg.id) ∧
      (syntheticTargetFor cfg extraDeps
          (findSourcesStrictlyGeneratedByTarget cache cfg fs g t) t).sources = [] := by
  constructor
  · clear hmiss hdisc
    induction targets generalizing cache with
    | nil => rfl
    | cons tg rest ih =>
      simp only [executeSynthetics, List.map_cons]
      rw [ih]
      rfl
  · have hstrict : findSourcesStrictlyGeneratedByTarget cache cfg fs g t = [] := by
      unfold findSourcesStrictlyGeneratedByTarget
      rw [hmiss, hdisc]
      rfl
    rw [hstrict]
    rfl

/-- Witness for C9: the fixture target `cW` has no workspace, so its discovery is
empty; over the fixture graph the loop creates one synthetic target per target. -/
theorem one_synthetic_per_relevant_node_witness :
    (lookupCache [] cW.id = none ∧
        findSourcesGeneratedByTarget [] cfgW fsW cW = []) ∧
      ((executeSynthetics cfgW fsW gW (fun _ => []) (fun _ => []) [] gW).map
          (fun s => s.derivedFrom) = gW.map (fun tg => tg.id) ∧
        (syntheticTargetFor cfgW (fun _ => [])
            (findSourcesStrictlyGeneratedByTarget [] cfgW fsW gW cW) cW).sources =
          []) :=
  ⟨⟨rfl, rfl⟩,
    one_synthetic_per_relevant_node cfgW fsW gW (fun _ => []) (fun _ => []) [] gW cW
      rfl rfl⟩

/-- C10: each synthetic node carries the `provides` attribute of the node it was
derived from (line 228: `provides=target.provides`). -/
theorem synthetic_preserves_provides (cfg : Cfg) (fs : FSTree) (g : List Target)
    (predict : Target → List FPath) (extraDeps : Target → List String)
    (cache : Cache) (targets : List Target) :
    (executeSynthetics cfg fs g predict extraDeps cache targets).map
        (fun s => s.provides) = targets.map (fun tg => tg.provides) := by
  induction targets generalizing cache with
  | nil => rfl
  | cons tg rest ih =>
    simp only [executeSynthetics, List.map_cons]
    rw [ih]
    rfl

/-! ## The build graph and rewiring (C3, C4) -/

/-- Modelled from the spec: the `BuildGraph` (framework class, not under `src/`):
"Mutable DAG of Nodes", "adjacency in both directions (dependencies, dependents)".
An edge `(a, b)` records that node `a` depends on node `b`. -/
structure BGraph where
  nodes : List String
  edges : List (String × String)

/-- `build_graph.dependents_of(a)`: the nodes with a dependency edge onto `a`. -/
def dependentsOf (g : BGraph) (a : String) : List String :=
  (g.edges.filter (fun e => e.2 = a)).map (fun e => e.1)

/-- `build_graph.dependencies_of(a)`: the nodes `a` has a dependency edge onto. -/
def dependenciesOf (g : BGraph) (a : String) : List String :=
  (g.edges.filter (fun e => e.1 = a)).map (fun e => e.2)

/-- Modelled from the spec: `build_graph.inject_dependency(dependent, dependency)`
adds one dependency edge ("Injecting an edge"). -/
def injectDependency (g : BGraph) (dependent dependency : String) : BGraph :=
  { g with edges := g.edges ++ [(dependent, dependency)] }

/-- Modelled from the spec: `context.add_new_target(...)` (lines 221-229) inserts
the freshly created synthetic node into the graph with its declared dependencies
(the extra synthetic dependencies of line 224). -/
def addNewTarget (g : BGraph) (s : String) (deps : List String) : BGraph :=
  { nodes := g.nodes ++ [s], edges := g.edges ++ deps.map (fun d => (s, d)) }

/-- The rewiring step of `execute` (lines 221-248) for original node `n` and its
synthetic node `s` carrying extra dependencies `extra`: create the synthetic node,
then inject an edge from every existing dependent of `n` to `s` (lines 238-242),
then an edge from `s` to every existing dependency of `n` (lines 243-248). -/
def rewire (g : BGraph) (n s : String) (extra : List String) : BGraph :=
  let g1 := addNewTarget g s extra
  let g2 := (dependentsOf g1 n).foldl (fun h d => injectDependency h d s) g1
  let g3 := (dependenciesOf g2 n).foldl (fun h d => injectDependency h s d) g2
  g3

/-- The dependency relation of a graph: `a` depends on `b`. -/
def Edge (g : BGraph) (a b : String) : Prop := (a, b) ∈ g.edges

/-- No nonempty directed dependency cycle. -/
def Acyclic (g : BGraph) : Prop := ∀ a, ¬ Relation.TransGen (Edge g) a a

/-- A graph admitting a rank function strictly decreasing along edges is acyclic. -/
theorem acyclic_of_rank (g : BGraph) (f : String → Nat)
    (h : ∀ a b, Edge g a b → f b < f a) : Acyclic g := by
  intro a hcyc
  have hlt : ∀ x y, Relation.TransGen (Edge g) x y → f y < f x := by
    intro x y hxy
    induction hxy with
    | single he => exact h _ _ he
    | tail _ he ih => exact lt_trans (h _ _ he) ih
  exact absurd (hlt a a hcyc) (lt_irrefl _)

theorem foldl_inject_to_edges (l : List String) (h : BGraph) (s : String) :
    (l.foldl (fun acc d => injectDependency acc d s) h).edges =
      h.edges ++ l.map (fun d => (d, s)) := by
  induction l generalizing h with
  | nil => simp
  | cons d rest ih =>
    simp only [List.foldl_cons]
    rw [ih]
    simp [injectDependency]

theorem foldl_inject_from_edges (l : List String) (h : BGraph) (s : String) :
    (l.foldl (fun acc d => injectDependency acc s d) h).edges =
      h.edges ++ l.map (fun d => (s, d)) := by
  induction l generalizing h with
  | nil => simp
  | cons d rest ih =>
    simp only [List.foldl_cons]
    rw [ih]
    simp [injectDependency]

/-- The hypotheses under which the rewiring step is applied: the pre-existing graph
is a DAG ("dependencies form a DAG (no cycles)"), the synthetic node is fresh (its
deterministic address is new to the graph, so no pre-existing edge touches it and
it differs from the original node), and the extra synthetic dependencies neither
mention the original or synthetic node nor reach, in the old graph, any dependent
of the original node. -/
structure RewireHyps (g : BGraph) (n s : String) (extra : List String) : Prop where
  acyclic : Acyclic g
  fresh : ∀ e ∈ g.edges, e.1 ≠ s ∧ e.2 ≠ s
  sn : s ≠ n
  extraN : n ∉ extra
  extraS : s ∉ extra
  extraSafe : ∀ d ∈ extra, ∀ x ∈ dependentsOf g n,
    ¬ Relation.ReflTransGen (Edge g) d x

theorem rewire_edges (g : BGraph) (n s : String) (extra : List String)
    (H : RewireHyps g n s extra) :
    (rewire g n s extra).edges =
      g.edges ++ extra.map (fun d => (s, d)) ++
        (dependentsOf g n).map (fun d => (d, s)) ++
        (dependenciesOf g n).map (fun d => (s, d)) := by
  have hnn : (n, n) ∉ g.edges := fun hmem =>
    H.acyclic n (Relation.TransGen.single hmem)
  have h1 : (addNewTarget g s extra).edges = g.edges ++ extra.map (fun d => (s, d)) :=
    rfl
  have hdeps1 : dependentsOf (addNewTarget g s extra) n = dependentsOf g n := by
    unfold dependentsOf
    rw [h1, List.filter_append, List.filter_map]
    have : (extra.filter
        ((fun (e : String × String) => decide (e.2 = n)) ∘ fun d => (s, d))) = [] := by
      rw [List.filter_eq_nil_iff]
      intro d hd
      simp only [Function.comp_apply, decide_eq_true_eq]
      intro hdn
      exact H.extraN (hdn ▸ hd)
    rw [this]
    simp
  have h2 : ((dependentsOf (addNewTarget g s extra) n).foldl
      (fun h d => injectDependency h d s) (addNewTarget g s extra)).edges =
      g.edges ++ extra.map (fun d => (s, d)) ++ (dependentsOf g n).map (fun d => (d, s)) := by
    rw [foldl_inject_to_edges, h1, hdeps1]
  have hdepn : ∀ x ∈ dependentsOf g n, x ≠ n := by
    intro x hx hxn
    unfold dependentsOf at hx
    rcases List.mem_map.mp hx with ⟨e, he, hex⟩
    rcases List.mem_filter.mp he with ⟨hmem, hcond⟩
    have : e = (n, n) := by
      rcases e with ⟨e1, e2⟩
      simp only [decide_eq_true_eq] at hcond
      simp only at hex
      subst hxn
      subst hex
      subst hcond
      rfl
    exact hnn (this ▸ hmem)
  have hdeps2 : dependenciesOf
      ((dependentsOf (addNewTarget g s extra) n).foldl
        (fun h d => injectDependency h d s) (addNewTarget g s extra)) n =
      dependenciesOf g n := by
    unfold dependenciesOf
    rw [h2]
    rw [List.filter_append, List.filter_append, List.filter_map, List.filter_map]
    have he : (extra.filter
        ((fun (e : String × String) => decide (e.1 = n)) ∘ fun d => (s, d))) = [] := by
      rw [List.filter_eq_nil_iff]
      intro d hd
      simp only [Function.comp_apply, decide_eq_true_eq]
      exact H.sn
    have hd : ((dependentsOf g n).filter
        ((fun (e : String × String) => decide (e.1 = n)) ∘ fun d => (d, s))) = [] := by
      rw [List.filter_eq_nil_iff]
      intro d hd
      simp only [Function.comp_apply, decide_eq_true_eq]
      exact hdepn d hd
    rw [he, hd]
    simp
  show ((dependenciesOf _ n).foldl (fun h d => injectDependency h s d) _).edges = _
  rw [foldl_inject_from_edges, h2, hdeps2]

theorem mem_dependentsOf {g : BGraph} {a x : String} :
    x ∈ dependentsOf g a ↔ (x, a) ∈ g.edges := by
  unfold dependentsOf
  constructor
  · intro hmem
    rcases List.mem_map.mp hmem with ⟨e, he, hex⟩
    rcases List.mem_filter.mp he with ⟨h1, h2⟩
    rcases e with ⟨e1, e2⟩
    simp only [decide_eq_true_eq] at h2
    simp only at hex
    subst hex
    subst h2
    exact h1
  · intro h
    exact List.mem_map.mpr ⟨(x, a), List.mem_filter.mpr ⟨h, by simp⟩, rfl⟩

theorem mem_dependenciesOf {g : BGraph} {a x : String} :
    x ∈ dependenciesOf g a ↔ (a, x) ∈ g.edges := by
  unfold dependenciesOf
  constructor
  · intro hmem
    rcases List.mem_map.mp hmem with ⟨e, he, hex⟩
    rcases List.mem_filter.mp he with ⟨h1, h2⟩
    rcases e with ⟨e1, e2⟩
    simp only [decide_eq_true_eq] at h2
    simp only at hex
    subst hex
    subst h2
    exact h1
  · intro h
    exact List.mem_map.mpr ⟨(a, x), List.mem_filter.mpr ⟨h, by simp⟩, rfl⟩

/-- Classification of the rewired graph's edges: old edges, synthetic-to-extra,
dependent-to-synthetic, and synthetic-to-dependency. -/
theorem edge_rewire_iff (g : BGraph) (n s : String) (extra : List String)
    (H : RewireHyps g n s extra) (a b : String) :
    Edge (rewire g n s extra) a b ↔
      Edge g a b ∨ (a = s ∧ b ∈ extra) ∨ (a ∈ dependentsOf g n ∧ b = s) ∨
        (a = s ∧ b ∈ dependenciesOf g n) := by
  unfold Edge
  rw [rewire_edges g n s extra H]
  simp only [List.mem_append, List.mem_map]
  constructor
  · rintro (((h | ⟨d, hd, he⟩) | ⟨d, hd, he⟩) | ⟨d, hd, he⟩)
    · exact Or.inl h
    · cases he
      exact Or.inr (Or.inl ⟨rfl, hd⟩)
    · cases he
      exact Or.inr (Or.inr (Or.inl ⟨hd, rfl⟩))
    · cases he
      exact Or.inr (Or.inr (Or.inr ⟨rfl, hd⟩))
  · rintro (h | ⟨rfl, hb⟩ | ⟨ha, rfl⟩ | ⟨rfl, hb⟩)
    · exact Or.inl (Or.inl (Or.inl h))
    · exact Or.inl (Or.inl (Or.inr ⟨b, hb, rfl⟩))
    · exact Or.inl (Or.inr ⟨a, ha, rfl⟩)
    · exact Or.inr ⟨b, hb, rfl⟩

/-- A path in the rewired graph starting at a non-synthetic node either is an
old-graph path avoiding the synthetic node, or reaches the synthetic node through
one of the original node's dependents and continues from there. -/
theorem rewire_path_decompose (g : BGraph) (n s : String) (extra : List String)
    (H : RewireHyps g n s extra) (y z : String)
    (hpath : Relation.ReflTransGen (Edge (rewire g n s extra)) y z) :
    y ≠ s →
      (Relation.ReflTransGen (Edge g) y z ∧ z ≠ s) ∨
        (∃ x ∈ dependentsOf g n, Relation.ReflTransGen (Edge g) y x ∧
          Relation.ReflTransGen (Edge (rewire g n s extra)) s z) := by
  induction hpath using Relation.ReflTransGen.head_induction_on with
  | refl =>
    intro hz
    exact Or.inl ⟨Relation.ReflTransGen.refl, hz⟩
  | @head a c hstep htail ih =>
    intro ha
    rcases (edge_rewire_iff g n s extra H a c).mp hstep with
      hold | ⟨has, _⟩ | ⟨hdep, hcs⟩ | ⟨has, _⟩
    · have hcs : c ≠ s := (H.fresh (a, c) hold).2
      rcases ih hcs with ⟨hp, hzs⟩ | ⟨x, hx, hpx, hsz⟩
      · exact Or.inl ⟨Relation.ReflTransGen.head hold hp, hzs⟩
      · exact Or.inr ⟨x, hx, Relation.ReflTransGen.head hold hpx, hsz⟩
    · exact absurd has ha
    · subst hcs
      exact Or.inr ⟨a, hdep, Relation.ReflTransGen.refl, htail⟩
    · exact absurd has ha

/-- No directed cycle passes through the synthetic node. -/
theorem rewire_no_cycle_at_s (g : BGraph) (n s : String) (extra : List String)
    (H : RewireHyps g n s extra) :
    ¬ Relation.TransGen (Edge (rewire g n s extra)) s s := by
  intro hcyc
  rcases Relation.TransGen.head'_iff.mp hcyc with ⟨w, hsw, hws⟩
  rcases (edge_rewire_iff g n s extra H s w).mp hsw with
    hold | ⟨_, hw⟩ | ⟨hdep, _⟩ | ⟨_, hw⟩
  · exact (H.fresh (s, w) hold).1 rfl
  · have hwns : w ≠ s := fun h => H.extraS (h ▸ hw)
    rcases rewire_path_decompose g n s extra H w s hws hwns with
      ⟨_, hss⟩ | ⟨x, hx, hwx, _⟩
    · exact hss rfl
    · exact H.extraSafe w hw x hx hwx
  · exact (H.fresh (s, n) (mem_dependentsOf.mp hdep)).1 rfl
  · have hnw : (n, w) ∈ g.edges := mem_dependenciesOf.mp hw
    have hwns : w ≠ s := (H.fresh (n, w) hnw).2
    rcases rewire_path_decompose g n s extra H w s hws hwns with
      ⟨_, hss⟩ | ⟨x, hx, hwx, _⟩
    · exact hss rfl
    · have hxn : (x, n) ∈ g.edges := mem_dependentsOf.mp hx
      exact H.acyclic n
        (Relation.TransGen.head' hnw
          (hwx.trans (Relation.ReflTransGen.single hxn)))

/-- C3: after rewiring, every pre-existing dependent of the original node depends
on the synthetic node, the synthetic node depends on every pre-existing dependency
of the original node, and the graph remains acyclic. -/
theorem rewire_graph_integrity (g : BGraph) (n s : String) (extra : List String)
    (H : RewireHyps g n s extra) :
    (∀ d ∈ dependentsOf g n,
        Relation.TransGen (Edge (rewire g n s extra)) d s) ∧
      (∀ d ∈ dependenciesOf g n,
        Relation.TransGen (Edge (rewire g n s extra)) s d) ∧
      Acyclic (rewire g n s extra) := by
  refine ⟨?_, ?_, ?_⟩
  · intro d hd
    exact Relation.TransGen.single
      ((edge_rewire_iff g n s extra H d s).mpr (Or.inr (Or.inr (Or.inl ⟨hd, rfl⟩))))
  · intro d hd
    exact Relation.TransGen.single
      ((edge_rewire_iff g n s extra H s d).mpr (Or.inr (Or.inr (Or.inr ⟨rfl, hd⟩))))
  · intro a hcyc
    by_cases has : a = s
    · exact rewire_no_cycle_at_s g n s extra H (has ▸ hcyc)
    · rcases Relation.TransGen.head'_iff.mp hcyc with ⟨b, hab, hba⟩
      by_cases hbs : b = s
      · exact rewire_no_cycle_at_s g n s extra H
          (Relation.TransGen.tail' (hbs ▸ hba) (hbs ▸ hab))
      · rcases rewire_path_decompose g n s extra H b a hba hbs with
          ⟨hold, _⟩ | ⟨x, hx, hbx, hsa⟩
        · rcases (edge_rewire_iff g n s extra H a b).mp hab with
            h | ⟨h, _⟩ | ⟨_, h⟩ | ⟨h, _⟩
          · exact H.acyclic a (Relation.TransGen.head' h hold)
          · exact has h
          · exact hbs h
          · exact has h
        · have hxs : Edge (rewire g n s extra) x s :=
            (edge_rewire_iff g n s extra H x s).mpr (Or.inr (Or.inr (Or.inl ⟨hx, rfl⟩)))
          have hbx' : Relation.ReflTransGen (Edge (rewire g n s extra)) b x :=
            Relation.ReflTransGen.mono
              (fun p q hpq => (edge_rewire_iff g n s extra H p q).mpr (Or.inl hpq)) hbx
          have hsx : Relation.ReflTransGen (Edge (rewire g n s extra)) s x :=
            (hsa.trans (Relation.ReflTransGen.single hab)).trans hbx'
          exact rewire_no_cycle_at_s g n s extra H (Relation.TransGen.tail' hsx hxs)

/-- Fixture build graph: `x` depends on `n`, `n` depends on `d`. -/
def gB : BGraph := { nodes := ["x", "n", "d"], edges := [("x", "n"), ("n", "d")] }

theorem gB_rewireHyps : RewireHyps gB "n" "s" [] := by
  refine ⟨?_, ?_, ?_, ?_, ?_, ?_⟩
  · apply acyclic_of_rank gB (fun a => if a = "x" then 2 else if a = "n" then 1 else 0)
    intro a b h
    simp only [Edge, gB, List.mem_cons, List.not_mem_nil, or_false] at h
    rcases h with h' | h' <;>
      · rw [Prod.mk.injEq] at h'
        rw [h'.1, h'.2]
        decide
  · decide
  · decide
  · decide
  · decide
  · intro d hd
    cases hd

/-- Witness for C3 at the fixture graph: the synthetic node `s` is fresh and the
extra-dependency list is empty. -/
theorem rewire_graph_integrity_witness :
    RewireHyps gB "n" "s" [] ∧
      ((∀ d ∈ dependentsOf gB "n",
          Relation.TransGen (Edge (rewire gB "n" "s" [])) d "s") ∧
        (∀ d ∈ dependenciesOf gB "n",
          Relation.TransGen (Edge (rewire gB "n" "s" [])) "s" d) ∧
        Acyclic (rewire gB "n" "s" [])) :=
  ⟨gB_rewireHyps, rewire_graph_integrity gB "n" "s" [] gB_rewireHyps⟩

/-! ## Dirty propagation (C4) -/

/-- Modelled from the spec: `build_graph.walk_transitive_dependee_graph(addresses,
work)` (framework class, not under `src/`): "Mark every transitive dependee
reachable from the original node's dependencies", with the work callback applied
"exactly once per rewired node".  Returns the visit list: the nodes on which
`work` fires, in order. -/
def walkTransitiveDependeeGraph (g : BGraph) (starts : List String) : List String :=
  walkFrom (fun a => dependentsOf g a) (g.edges.map (fun e => e.2)) starts

/-- The nodes whose invalidation-dirty flag the dirty-marking step of `execute`
(lines 249-252) sets for original node `n`: the walk of the transitive dependee
graph from `build_graph.dependencies_of(target.address)`, with
`work=lambda t: t.mark_transitive_invalidation_hash_dirty()`. -/
def markedDirty (g : BGraph) (n : String) : List String :=
  walkTransitiveDependeeGraph g (dependenciesOf g n)

theorem markedDirty_spec (g : BGraph) (n : String) :
    (∀ x, x ∈ markedDirty g n ↔
        ∃ d ∈ dependenciesOf g n,
          Relation.ReflTransGen (fun a b => Edge g b a) d x) ∧
      (markedDirty g n).Nodup := by
  have hrel : ∀ a b,
      stepRel (fun a => dependentsOf g a) (g.edges.map (fun e => e.2)) a b ↔
        Edge g b a := by
    intro a b
    constructor
    · rintro ⟨_, hb⟩
      exact mem_dependentsOf.mp hb
    · intro h
      exact ⟨List.mem_map.mpr ⟨(b, a), h, rfl⟩, mem_dependentsOf.mpr h⟩
  obtain ⟨hmem, hnd⟩ := walkFrom_spec (fun a => dependentsOf g a)
    (g.edges.map (fun e => e.2)) (dependenciesOf g n)
  refine ⟨fun x => ?_, hnd⟩
  rw [show markedDirty g n =
      walkFrom (fun a => dependentsOf g a) (g.edges.map (fun e => e.2))
        (dependenciesOf g n) from rfl,
    hmem x]
  constructor
  · rintro ⟨d, hd, hr⟩
    exact ⟨d, hd, Relation.ReflTransGen.mono (fun p q h => (hrel p q).mp h) hr⟩
  · rintro ⟨d, hd, hr⟩
    exact ⟨d, hd, Relation.ReflTransGen.mono (fun p q h => (hrel p q).mpr h) hr⟩

/-- C4: after rewiring, the dirty-marking step fires on exactly the transitive
dependee closure of the original node's dependencies — every node of the closure is
marked, and the visit list contains each such node exactly once even when it is
reachable along several paths. -/
theorem dirty_marking_covers_dependee_closure_once (g : BGraph) (n s : String)
    (extra : List String) :
    (∀ x, x ∈ markedDirty (rewire g n s extra) n ↔
        ∃ d ∈ dependenciesOf (rewire g n s extra) n,
          Relation.ReflTransGen (fun a b => Edge (rewire g n s extra) b a) d x) ∧
      (markedDirty (rewire g n s extra) n).Nodup :=
  markedDirty_spec (rewire g n s extra) n
